import Mathlib

/-!
Shallow embedding of the state-space search engine in `search.py` and the
maze driver in `maze_puzzle_game.py`.

Conventions of the embedding:
* Python `int` is modelled by `Int` (maze coordinates) or `Nat` (counters,
  depths, unit path costs); the step-limit argument, whose default is `-1`,
  is an `Int`.
* The Python `while` loops of the two search functions are modelled with an
  explicit fuel argument: `none` means the fuel ran out before the loop
  finished, `some none` is the Python `return None` (frontier exhausted),
  and `some (some n)` is `return n`.
* The `explored` Python `set` is modelled as a `List` of states used only
  through membership, and the BFS `deque` frontier as a `List` used FIFO
  (append at the tail, pop at the head), exactly as the source uses them.
-/

set_option linter.unusedSectionVars false

universe u v

/-- The abstract `Problem` class of `search.py`.  A concrete domain supplies
`actions`, `result`, `goal_test` and `path_cost`; the default `path_cost`
of the source adds a unit step cost, which concrete instances below keep. -/
structure Problem (σ : Type u) (α : Type v) where
  initial : σ
  actions : σ → List α
  result : σ → α → σ
  goal_test : σ → Bool
  path_cost : Nat → σ → α → σ → Nat

/-- The search-tree `Node` of `search.py`: a state plus a parent link, the
action that produced it, and the accumulated path cost.  The root stores
only the state (its Python `parent` and `action` are `None` and its
`path_cost` is 0). -/
inductive Node (σ : Type u) (α : Type v) : Type (max u v) where
  | root (state : σ)
  | child (state : σ) (parent : Node σ α) (action : α) (path_cost : Nat)
deriving DecidableEq

namespace Node

variable {σ : Type u} {α : Type v}

/-- `self.state`. -/
def state : Node σ α → σ
  | .root s => s
  | .child s _ _ _ => s

/-- `self.path_cost` (0 for the root, the stored cost otherwise). -/
def pathCost : Node σ α → Nat
  | .root _ => 0
  | .child _ _ _ c => c

/-- `self.depth`: 0 for the root, `parent.depth + 1` otherwise. -/
def depth : Node σ α → Nat
  | .root _ => 0
  | .child _ p _ _ => p.depth + 1

/-- `self.action`: `None` for the root, the stored action otherwise. -/
def act? : Node σ α → Option α
  | .root _ => none
  | .child _ _ a _ => some a

/-- `Node.path()`: the list of nodes from the root to this node, obtained by
following parent links and reversing. -/
def path : Node σ α → List (Node σ α)
  | .root s => [.root s]
  | .child s p a c => p.path ++ [.child s p a c]

/-- `Node.solution()`: the actions of `path()[1:]`.  Every element of
`path()[1:]` is a child node, so its `action` is present; `filterMap`
extracts exactly those actions. -/
def solution (n : Node σ α) : List α :=
  (n.path.drop 1).filterMap act?

/-- `Node.child_node(problem, action)` [Figure 3.10]. -/
def child_node (p : Problem σ α) (n : Node σ α) (a : α) : Node σ α :=
  .child (p.result n.state a) n a (p.path_cost n.pathCost n.state a (p.result n.state a))

/-- `Node.expand(problem)`: one child per action admissible in this state. -/
def expand (n : Node σ α) (p : Problem σ α) : List (Node σ α) :=
  (p.actions n.state).map (n.child_node p)

/-- `Node.__eq__`: equality compares the states alone (the `isinstance`
check of the source is vacuous in the typed embedding). -/
def beq [DecidableEq σ] (n m : Node σ α) : Bool :=
  decide (n.state = m.state)

/-- `Node.__hash__`: the hash of a node is the hash of its state, for any
ambient hash function on states. -/
def hashBy (hs : σ → Nat) (n : Node σ α) : Nat :=
  hs n.state

end Node

section Search

variable {σ : Type u} {α : Type v} [DecidableEq σ]

/-- The body of the `for child in node.expand(problem)` loop of
`breadth_first_graph_search`, processing the children in order against the
current explored set and frontier.  `Sum.inl c` models the early
`return child` on a goal child; `Sum.inr fr` is the frontier left when the
loop runs to completion.  Membership of a node in the frontier is by state,
as `Node.__eq__` dictates. -/
def processChildren (p : Problem σ α) (explored : List σ) :
    List (Node σ α) → List (Node σ α) → Sum (Node σ α) (List (Node σ α))
  | frontier, [] => Sum.inr frontier
  | frontier, c :: cs =>
    if c.state ∉ explored ∧ c.state ∉ frontier.map Node.state then
      if p.goal_test c.state then Sum.inl c
      else processChildren p explored (frontier ++ [c]) cs
    else processChildren p explored frontier cs

/-- The `while frontier` loop of `breadth_first_graph_search`.  One fuel
unit is one iteration; `step_num` is the running counter, incremented at the
top of each iteration, and the debug return fires when `step_limits > 0 and
step_num >= step_limits`. -/
def bfsLoop (p : Problem σ α) (step_limits : Int) :
    Nat → List (Node σ α) → List σ → Nat → Option (Option (Node σ α))
  | 0, _, _, _ => none
  | fuel + 1, frontier, explored, step_num =>
    match frontier with
    | [] => some none
    | node :: rest =>
      if 0 < step_limits ∧ step_limits ≤ ((step_num : Int) + 1) then some (some node)
      else
        match processChildren p (node.state :: explored) rest (node.expand p) with
        | Sum.inl goal => some (some goal)
        | Sum.inr frontier2 =>
          bfsLoop p step_limits fuel frontier2 (node.state :: explored) (step_num + 1)

/-- `breadth_first_graph_search(problem, step_limits = -1)` [Figure 3.11],
with an explicit fuel bound on the number of loop iterations. -/
def breadth_first_graph_search (p : Problem σ α) (step_limits : Int) (fuel : Nat) :
    Option (Option (Node σ α)) :=
  let node : Node σ α := .root p.initial
  if p.goal_test node.state then some (some node)
  else bfsLoop p step_limits fuel [node] [] 0

/-- Modelled from the spec (the `PriorityQueue` of the external `utils`
layer is not part of the repository): `frontier.pop()` removes and returns
the minimum-`f` node; among equal scores the earliest-inserted entry is
taken.  `selectMin f n l` returns the chosen node and the remaining
entries of `n :: l` in their original order. -/
def selectMin (f : Node σ α → Nat) (n : Node σ α) :
    List (Node σ α) → Node σ α × List (Node σ α)
  | [] => (n, [])
  | m :: rest =>
    let best := selectMin f m rest
    if f n ≤ f best.1 then (n, m :: rest) else (best.1, n :: best.2)

/-- Modelled from the spec: `del frontier[child]` removes the frontier
entry whose state equals the child's state (the first such entry; the
dedup invariant keeps it unique). -/
def removeFirstState (s : σ) : List (Node σ α) → List (Node σ α)
  | [] => []
  | n :: rest => if n.state = s then rest else n :: removeFirstState s rest

/-- The body of the `for child in node.expand(problem)` loop of
`best_first_graph_search`: a child whose state is in neither the explored
set nor the frontier is appended; otherwise, if its state is in the
frontier, the stored score `frontier[child]` of the resident entry is
compared with `f(child)` and the entry is replaced exactly when the new
score is strictly lower.  The stored score of an entry is the score the
queue recorded on insertion, which for the pure memoized `f` equals `f`
of the resident node (`frontier[child]` lookup modelled from the spec). -/
def bestFirstInsert (f : Node σ α → Nat) (explored : List σ)
    (frontier : List (Node σ α)) (child : Node σ α) : List (Node σ α) :=
  if child.state ∉ explored ∧ child.state ∉ frontier.map Node.state then frontier ++ [child]
  else if child.state ∈ frontier.map Node.state then
    match frontier.find? (fun m => decide (m.state = child.state)) with
    | some old => if f child < f old then removeFirstState child.state frontier ++ [child] else frontier
    | none => frontier
  else frontier

/-- The `while frontier` loop of `best_first_graph_search`; the goal test
runs on the popped minimum-`f` node, and `step_num` is the (otherwise
unused) counter the source increments each iteration. -/
def bestFirstLoop (p : Problem σ α) (f : Node σ α → Nat) :
    Nat → List (Node σ α) → List σ → Nat → Option (Option (Node σ α))
  | 0, _, _, _ => none
  | fuel + 1, frontier, explored, step_num =>
    match frontier with
    | [] => some none
    | m :: rest =>
      let picked := selectMin f m rest
      if p.goal_test picked.1.state then some (some picked.1)
      else
        bestFirstLoop p f fuel
          ((picked.1.expand p).foldl (bestFirstInsert f (picked.1.state :: explored)) picked.2)
          (picked.1.state :: explored) (step_num + 1)

/-- `best_first_graph_search(problem, f)` with an explicit fuel bound.  The
source's `f = memoize(f, 'f')` caches scores on nodes; the scoring
functions used here are pure, so memoization does not change any value and
`f` is applied directly. -/
def best_first_graph_search (p : Problem σ α) (f : Node σ α → Nat) (fuel : Nat) :
    Option (Option (Node σ α)) :=
  bestFirstLoop p f fuel [.root p.initial] [] 0

end Search

section Maze

/-- `maze[x][y]` for the guarded accesses of `MazePuzzle.actions`: every
access the source performs is in bounds (the guards `x > 0`,
`x < len(maze) - 1`, … ensure it), so any total completion agrees with the
source on the accesses made; out-of-range indices default to `'#'`. -/
def mazeCell (maze : List (List Char)) (x y : Int) : Char :=
  if 0 ≤ x ∧ 0 ≤ y then (maze.getD x.toNat []).getD y.toNat '#' else '#'

/-- `MazePuzzle.actions(state)`: the admissible moves, in the source's
emission order UP, DOWN, LEFT, RIGHT, each guarded by the grid bound and
the passability of the destination cell. -/
def MazePuzzle.actions (maze : List (List Char)) (state : Int × Int) : List String :=
  (if 0 < state.1 ∧ mazeCell maze (state.1 - 1) state.2 = '.' then ["UP"] else []) ++
  (if state.1 < (maze.length : Int) - 1 ∧ mazeCell maze (state.1 + 1) state.2 = '.' then ["DOWN"] else []) ++
  (if 0 < state.2 ∧ mazeCell maze state.1 (state.2 - 1) = '.' then ["LEFT"] else []) ++
  (if state.2 < ((maze.getD 0 []).length : Int) - 1 ∧ mazeCell maze state.1 (state.2 + 1) = '.' then ["RIGHT"] else [])

/-- `MazePuzzle.result(state, action)`: the unit offset for each of the four
direction strings, with no bounds or passability check; any other action
falls off the end of the `if`/`elif` chain and returns Python `None`,
modelled as `none`. -/
def MazePuzzle.result (state : Int × Int) (action : String) : Option (Int × Int) :=
  if action = "UP" then some (state.1 - 1, state.2)
  else if action = "DOWN" then some (state.1 + 1, state.2)
  else if action = "LEFT" then some (state.1, state.2 - 1)
  else if action = "RIGHT" then some (state.1, state.2 + 1)
  else none

/-- `MazePuzzle.goal_test(state)`: equality with the goal cell. -/
def MazePuzzle.goal_test (goal state : Int × Int) : Bool :=
  decide (state = goal)

/-- `MazePuzzle.h(node)`: the Manhattan distance from the node's state to
the goal. -/
def MazePuzzle.h (goal : Int × Int) (n : Node (Int × Int) String) : Nat :=
  (n.state.1 - goal.1).natAbs + (n.state.2 - goal.2).natAbs

/-- The `MazePuzzle` problem instance: `actions`, `result` and `goal_test`
as above, and the inherited default unit `path_cost`.  The search only ever
applies `result` to actions returned by `actions`, on which
`MazePuzzle.result` is always `some`; the `getD` default is never reached
there. -/
def MazePuzzle.problem (initial goal : Int × Int) (maze : List (List Char)) :
    Problem (Int × Int) String where
  initial := initial
  actions := MazePuzzle.actions maze
  result := fun s a => (MazePuzzle.result s a).getD s
  goal_test := MazePuzzle.goal_test goal
  path_cost := fun c _ _ _ => c + 1

/-- The 5×5 grid of `maze_puzzle_game.py`. -/
def theMaze : List (List Char) :=
  [['.', '.', '.', '#', '.'],
   ['.', '.', '.', '.', '.'],
   ['#', '.', '#', '.', '#'],
   ['.', '.', '.', '#', '.'],
   ['.', '#', '.', '.', '.']]

/-- The `puzzle` object of `maze_puzzle_game.py`: initial `(0,0)`, goal
`(4,4)`, over `theMaze`. -/
def puzzle : Problem (Int × Int) String :=
  MazePuzzle.problem (0, 0) (4, 4) theMaze

end Maze

section Semantics

variable {σ : Type u} {α : Type v}

/-- Applying a sequence of actions from a state with `Problem.result`. -/
def execActs (p : Problem σ α) (s : σ) (acts : List α) : σ :=
  acts.foldl p.result s

/-- A sequence of actions each of which is admissible (returned by
`Problem.actions`) in the state where it is applied. -/
def ValidSeq (p : Problem σ α) : σ → List α → Prop
  | _, [] => True
  | s, a :: rest => a ∈ p.actions s ∧ ValidSeq p (p.result s a) rest

/-- The set of lengths of valid action sequences leading from the initial
state to a state satisfying the goal test. -/
def SolutionLengths (p : Problem σ α) : Set Nat :=
  {k | ∃ acts, ValidSeq p p.initial acts ∧
    p.goal_test (execActs p p.initial acts) = true ∧ acts.length = k}

/-- The nodes reachable by repeated `expand` from the root node built on
`problem.initial` — exactly the nodes either search algorithm ever holds. -/
inductive ReachableNode (p : Problem σ α) : Node σ α → Prop where
  | root : ReachableNode p (.root p.initial)
  | expand {n c : Node σ α} : ReachableNode p n → c ∈ n.expand p → ReachableNode p c

instance ValidSeq.instDecidable [DecidableEq α] (p : Problem σ α) :
    ∀ (s : σ) (acts : List α), Decidable (ValidSeq p s acts)
  | _, [] => isTrue trivial
  | s, a :: rest =>
    have : Decidable (ValidSeq p (p.result s a) rest) :=
      ValidSeq.instDecidable p (p.result s a) rest
    decidable_of_iff (a ∈ p.actions s ∧ ValidSeq p (p.result s a) rest) Iff.rfl

/-- `s` is reachable from the initial state by some valid sequence of
exactly `k` actions. -/
def Reaches (p : Problem σ α) (s : σ) (k : Nat) : Prop :=
  ∃ acts, ValidSeq p p.initial acts ∧ acts.length = k ∧ execActs p p.initial acts = s

/-- A node is sound when its recorded action sequence is valid, replays to
its state, and has length equal to its depth. -/
def SoundNode (p : Problem σ α) (n : Node σ α) : Prop :=
  ValidSeq p p.initial n.solution ∧
    execActs p p.initial n.solution = n.state ∧
    n.solution.length = n.depth

end Semantics

section LoopStates

variable {σ : Type u} {α : Type v} [DecidableEq σ]

/-- The loop states `(frontier, explored, step_num)` the
`breadth_first_graph_search` while-loop passes through, observed at the top
of each iteration.  The loop is entered only when the root fails the goal
test; a step happens when the debug limit does not fire and the children
loop runs to completion without returning a goal child. -/
inductive BfsReach (p : Problem σ α) (lim : Int) :
    List (Node σ α) → List σ → Nat → Prop where
  | init : p.goal_test p.initial = false → BfsReach p lim [.root p.initial] [] 0
  | step {node : Node σ α} {rest : List (Node σ α)} {ex : List σ} {k : Nat}
      {frontier2 : List (Node σ α)} :
      BfsReach p lim (node :: rest) ex k →
      ¬(0 < lim ∧ lim ≤ ((k : Int) + 1)) →
      processChildren p (node.state :: ex) rest (node.expand p) = Sum.inr frontier2 →
      BfsReach p lim frontier2 (node.state :: ex) (k + 1)

/-- The loop states of the `best_first_graph_search` while-loop, observed
at the top of each iteration.  A step pops the minimum-`f` node, which must
fail the goal test, adds its state to `explored`, and folds all its
children through the frontier-insertion logic. -/
inductive BestReach (p : Problem σ α) (f : Node σ α → Nat) :
    List (Node σ α) → List σ → Nat → Prop where
  | init : BestReach p f [.root p.initial] [] 0
  | step {m : Node σ α} {rest : List (Node σ α)} {ex : List σ} {k : Nat} :
      BestReach p f (m :: rest) ex k →
      p.goal_test (selectMin f m rest).1.state = false →
      BestReach p f
        (((selectMin f m rest).1.expand p).foldl
          (bestFirstInsert f ((selectMin f m rest).1.state :: ex)) (selectMin f m rest).2)
        ((selectMin f m rest).1.state :: ex) (k + 1)

/-- The invariant of the BFS while-loop used for the optimality and
termination arguments: frontier nodes are sound and of minimal depth for
their state, depths are sorted and within one of the head's, every state
reachable in at most the head's depth is already explored or
frontier-resident, explored states are closed under expansion into the
explored-or-frontier region, no explored or frontier state is a goal, and
the explored set and frontier states are duplicate-free and disjoint. -/
structure BfsInv (p : Problem σ α) (fr : List (Node σ α)) (ex : List σ) : Prop where
  sound : ∀ n ∈ fr, SoundNode p n
  minDepth : ∀ n ∈ fr, ∀ k, Reaches p n.state k → n.depth ≤ k
  depthSorted : List.Pairwise (fun a b : Node σ α => a.depth ≤ b.depth) fr
  depthBound : ∀ h ∈ fr.head?, ∀ n ∈ fr, n.depth ≤ h.depth + 1
  cover : ∀ h ∈ fr.head?, ∀ s k, Reaches p s k → k ≤ h.depth →
    s ∈ ex ∨ s ∈ fr.map Node.state
  closed : ∀ s ∈ ex, ∀ a ∈ p.actions s,
    p.result s a ∈ ex ∨ p.result s a ∈ fr.map Node.state
  exNoGoal : ∀ s ∈ ex, p.goal_test s = false
  frNoGoal : ∀ n ∈ fr, p.goal_test n.state = false
  disj : ∀ s ∈ ex, s ∉ fr.map Node.state
  nodupFr : (fr.map Node.state).Nodup
  nodupEx : ex.Nodup

/-- The smaller invariant of the best-first while-loop: frontier nodes are
sound, explored states and frontier states are disjoint, and both are
duplicate-free. -/
structure BestInv (p : Problem σ α) (fr : List (Node σ α)) (ex : List σ) : Prop where
  sound : ∀ n ∈ fr, SoundNode p n
  disj : ∀ s ∈ ex, s ∉ fr.map Node.state
  nodupFr : (fr.map Node.state).Nodup
  nodupEx : ex.Nodup

end LoopStates

section TinyProblems

/-- A two-state problem with one action leading from the initial state 0
to the goal state 1, used to instantiate hypotheses concretely. -/
def tinyGoal : Problem Nat Unit where
  initial := 0
  actions := fun s => if s = 0 then [()] else []
  result := fun _ _ => 1
  goal_test := fun s => decide (s = 1)
  path_cost := fun c _ _ _ => c + 1

/-- A one-state problem with no actions and an unsatisfiable goal test,
used to instantiate the unreachable-goal hypotheses concretely. -/
def tinyNoGoal : Problem Nat Unit where
  initial := 0
  actions := fun _ => []
  result := fun s _ => s
  goal_test := fun _ => false
  path_cost := fun c _ _ _ => c + 1

end TinyProblems

section NodeLemmas

variable {σ : Type u} {α : Type v}

theorem Node.path_length (n : Node σ α) : n.path.length = n.depth + 1 := by
  induction n with
  | root s => rfl
  | child s p a c ih => simp [Node.path, Node.depth, ih]

theorem Node.solution_root (s : σ) : (Node.root s : Node σ α).solution = [] := rfl

theorem Node.solution_child (s : σ) (p : Node σ α) (a : α) (c : Nat) :
    (Node.child s p a c).solution = p.solution ++ [a] := by
  show ((p.path ++ [Node.child s p a c]).drop 1).filterMap Node.act? = _
  rw [List.drop_append_of_le_length (by have := Node.path_length p; omega),
    List.filterMap_append]
  simp [Node.solution, Node.act?]

theorem Node.solution_length (n : Node σ α) : n.solution.length = n.depth := by
  induction n with
  | root s => rfl
  | child s p a c ih => simp [Node.solution_child, Node.depth, ih]

theorem Node.mem_expand {p : Problem σ α} {n c : Node σ α} :
    c ∈ n.expand p ↔ ∃ a ∈ p.actions n.state, c = n.child_node p a := by
  simp [Node.expand, eq_comm]

theorem Node.child_node_state (p : Problem σ α) (n : Node σ α) (a : α) :
    (n.child_node p a).state = p.result n.state a := rfl

theorem Node.child_node_depth (p : Problem σ α) (n : Node σ α) (a : α) :
    (n.child_node p a).depth = n.depth + 1 := rfl

theorem Node.child_node_solution (p : Problem σ α) (n : Node σ α) (a : α) :
    (n.child_node p a).solution = n.solution ++ [a] := by
  cases n <;> exact Node.solution_child ..

theorem Node.depth_of_mem_expand {p : Problem σ α} {n c : Node σ α}
    (h : c ∈ n.expand p) : c.depth = n.depth + 1 := by
  rcases Node.mem_expand.1 h with ⟨a, _, rfl⟩
  rfl

theorem execActs_cons (p : Problem σ α) (s : σ) (a : α) (acts : List α) :
    execActs p s (a :: acts) = execActs p (p.result s a) acts := rfl

theorem execActs_append_singleton (p : Problem σ α) (s : σ) (acts : List α) (a : α) :
    execActs p s (acts ++ [a]) = p.result (execActs p s acts) a := by
  simp [execActs, List.foldl_append]

theorem validSeq_append_singleton (p : Problem σ α) (s : σ) (acts : List α) (a : α) :
    ValidSeq p s (acts ++ [a]) ↔
      ValidSeq p s acts ∧ a ∈ p.actions (execActs p s acts) := by
  induction acts generalizing s with
  | nil => simp [ValidSeq, execActs]
  | cons b rest ih => simp [ValidSeq, ih, execActs_cons, and_assoc]

theorem soundNode_root (p : Problem σ α) : SoundNode p (.root p.initial) :=
  ⟨trivial, rfl, rfl⟩

theorem soundNode_expand {p : Problem σ α} {n c : Node σ α}
    (hn : SoundNode p n) (hc : c ∈ n.expand p) : SoundNode p c := by
  rcases Node.mem_expand.1 hc with ⟨a, ha, rfl⟩
  obtain ⟨hv, he, hl⟩ := hn
  refine ⟨?_, ?_, ?_⟩
  · rw [Node.child_node_solution]
    exact (validSeq_append_singleton ..).2 ⟨hv, by rw [he]; exact ha⟩
  · rw [Node.child_node_solution, execActs_append_singleton, he,
      Node.child_node_state]
  · rw [Node.child_node_solution, Node.child_node_depth]
    simp [hl]

theorem reachable_sound {p : Problem σ α} {n : Node σ α}
    (h : ReachableNode p n) : SoundNode p n := by
  induction h with
  | root => exact soundNode_root p
  | expand _ hc ih => exact soundNode_expand ih hc

theorem soundNode_reaches {p : Problem σ α} {n : Node σ α}
    (h : SoundNode p n) : Reaches p n.state n.depth :=
  ⟨n.solution, h.1, h.2.2, h.2.1⟩

end NodeLemmas

section ProcessChildrenLemmas

variable {σ : Type u} {α : Type v} [DecidableEq σ]

theorem processChildren_inr_spec {p : Problem σ α} {ex : List σ} :
    ∀ {cs fr fr' : List (Node σ α)}, processChildren p ex fr cs = Sum.inr fr' →
    ∃ kept,
      fr' = fr ++ kept ∧
      (∀ c ∈ kept, c ∈ cs ∧ p.goal_test c.state = false ∧ c.state ∉ ex ∧
        c.state ∉ fr.map Node.state) ∧
      (kept.map Node.state).Nodup ∧
      (∀ c ∈ cs, c.state ∈ ex ∨ c.state ∈ fr'.map Node.state) := by
  intro cs
  induction cs with
  | nil =>
    intro fr fr' h
    simp only [processChildren] at h
    exact ⟨[], by simpa using (Sum.inr.inj h).symm, by simp, by simp, by simp⟩
  | cons c cs ih =>
    intro fr fr' h
    simp only [processChildren] at h
    by_cases hc : c.state ∉ ex ∧ c.state ∉ fr.map Node.state
    · rw [if_pos hc] at h
      by_cases hg : p.goal_test c.state = true
      · rw [if_pos hg] at h; exact absurd h (by simp)
      · rw [if_neg hg] at h
        obtain ⟨kept, hfr', hkept, hnd, hcov⟩ := ih h
        refine ⟨c :: kept, by simpa using hfr', ?_, ?_, ?_⟩
        · intro d hd
          rcases List.mem_cons.1 hd with rfl | hd
          · exact ⟨List.mem_cons_self .., by simpa using hg, hc.1, hc.2⟩
          · obtain ⟨h1, h2, h3, h4⟩ := hkept d hd
            exact ⟨List.mem_cons_of_mem _ h1, h2, h3, fun hm => h4 (by simp [hm])⟩
        · refine List.Pairwise.cons ?_ hnd
          intro s hs
          simp only [List.mem_map] at hs
          obtain ⟨d, hd, rfl⟩ := hs
          have := (hkept d hd).2.2.2
          simp only [List.map_append, List.mem_append] at this
          intro he
          exact this (Or.inr (by simp [he]))
        · intro d hd
          rcases List.mem_cons.1 hd with rfl | hd
          · right
            rw [hfr']
            simp
          · exact hcov d hd
    · rw [if_neg hc] at h
      obtain ⟨kept, hfr', hkept, hnd, hcov⟩ := ih h
      refine ⟨kept, hfr', ?_, hnd, ?_⟩
      · intro d hd
        obtain ⟨h1, h2, h3, h4⟩ := hkept d hd
        exact ⟨List.mem_cons_of_mem _ h1, h2, h3, h4⟩
      · intro d hd
        rcases List.mem_cons.1 hd with rfl | hd
        · rcases not_and_or.1 hc with h' | h'
          · exact Or.inl (not_not.1 h')
          · right
            rw [hfr']
            have := not_not.1 h'
            simp only [List.map_append, List.mem_append]
            exact Or.inl this
        · exact hcov d hd

theorem processChildren_inl_spec {p : Problem σ α} {ex : List σ} :
    ∀ {cs fr : List (Node σ α)} {c : Node σ α},
      processChildren p ex fr cs = Sum.inl c →
      c ∈ cs ∧ p.goal_test c.state = true ∧ c.state ∉ ex := by
  intro cs
  induction cs with
  | nil => intro fr c h; exact absurd h (by simp [processChildren])
  | cons d cs ih =>
    intro fr c h
    simp only [processChildren] at h
    by_cases hd : d.state ∉ ex ∧ d.state ∉ fr.map Node.state
    · rw [if_pos hd] at h
      by_cases hg : p.goal_test d.state = true
      · rw [if_pos hg] at h
        obtain rfl : d = c := Sum.inl.inj h
        exact ⟨List.mem_cons_self .., hg, hd.1⟩
      · rw [if_neg hg] at h
        obtain ⟨h1, h2, h3⟩ := ih h
        exact ⟨List.mem_cons_of_mem _ h1, h2, h3⟩
    · rw [if_neg hd] at h
      obtain ⟨h1, h2, h3⟩ := ih h
      exact ⟨List.mem_cons_of_mem _ h1, h2, h3⟩

theorem processChildren_skip_explored {p : Problem σ α} {ex : List σ}
    {fr cs : List (Node σ α)} {c : Node σ α} (h : c.state ∈ ex) :
    processChildren p ex fr (c :: cs) = processChildren p ex fr cs := by
  simp only [processChildren]
  rw [if_neg (by simp [h])]

end ProcessChildrenLemmas

section BfsInvariant

variable {σ : Type u} {α : Type v} [DecidableEq σ]

theorem bfsInv_init {p : Problem σ α} (h : p.goal_test p.initial = false) :
    BfsInv p [Node.root p.initial] [] := by
  refine ⟨?_, ?_, ?_, ?_, ?_, ?_, ?_, ?_, ?_, ?_, ?_⟩
  · intro n hn
    obtain rfl : n = Node.root p.initial := by simpa using hn
    exact soundNode_root p
  · intro n hn k _
    obtain rfl : n = Node.root p.initial := by simpa using hn
    exact Nat.zero_le k
  · simp
  · intro h0 hh0 n hn
    obtain rfl : n = Node.root p.initial := by simpa using hn
    exact Nat.zero_le _
  · intro h0 hh0 s k hr hk
    obtain rfl : Node.root p.initial = h0 := by simpa using hh0
    obtain ⟨acts, _, hlen, hex⟩ := hr
    have : k = 0 := Nat.le_zero.1 hk
    subst this
    obtain rfl : acts = [] := List.eq_nil_of_length_eq_zero hlen
    right
    simp [← hex, execActs, Node.state]
  · simp
  · simp
  · intro n hn
    obtain rfl : n = Node.root p.initial := by simpa using hn
    exact h
  · simp
  · simp
  · simp

theorem bfsInv_step {p : Problem σ α} {node : Node σ α}
    {rest fr' : List (Node σ α)} {ex : List σ}
    (inv : BfsInv p (node :: rest) ex)
    (h : processChildren p (node.state :: ex) rest (node.expand p) = Sum.inr fr') :
    BfsInv p fr' (node.state :: ex) := by
  obtain ⟨kept, rfl, hkept, hknd, hcov⟩ := processChildren_inr_spec h
  have hnodesound : SoundNode p node := inv.sound node (by simp)
  have hkmem : ∀ c ∈ kept, c ∈ node.expand p := fun c hc => (hkept c hc).1
  have hksound : ∀ c ∈ kept, SoundNode p c :=
    fun c hc => soundNode_expand hnodesound (hkmem c hc)
  have hkdepth : ∀ c ∈ kept, c.depth = node.depth + 1 :=
    fun c hc => Node.depth_of_mem_expand (hkmem c hc)
  have hrest_bound : ∀ n ∈ rest, n.depth ≤ node.depth + 1 :=
    fun n hn => inv.depthBound node (by simp) n (by simp [hn])
  have hrest_lb : ∀ n ∈ rest, node.depth ≤ n.depth := by
    intro n hn
    exact List.rel_of_pairwise_cons inv.depthSorted hn
  have hnode_not_ex : node.state ∉ ex := by
    intro hmem
    exact inv.disj node.state hmem (by simp)
  refine ⟨?_, ?_, ?_, ?_, ?_, ?_, ?_, ?_, ?_, ?_, ?_⟩
  · -- sound
    intro n hn
    rcases List.mem_append.1 hn with hn | hn
    · exact inv.sound n (by simp [hn])
    · exact hksound n hn
  · -- minDepth
    intro n hn k hr
    rcases List.mem_append.1 hn with hn | hn
    · exact inv.minDepth n (by simp [hn]) k hr
    · by_contra hlt
      push_neg at hlt
      have hk_le : k ≤ node.depth := by
        have := hkdepth n hn
        omega
      rcases inv.cover node (by simp) n.state k hr hk_le with hs | hs
      · exact (hkept n hn).2.2.1 (by simp [hs])
      · simp only [List.map_cons, List.mem_cons] at hs
        rcases hs with hs | hs
        · exact (hkept n hn).2.2.1 (by simp [hs])
        · exact (hkept n hn).2.2.2 hs
  · -- depthSorted
    rw [List.pairwise_append]
    refine ⟨inv.depthSorted.of_cons, ?_, ?_⟩
    · refine List.pairwise_of_forall_mem_list ?_
      intro a ha b hb
      rw [hkdepth a ha, hkdepth b hb]
    · intro a ha b hb
      rw [hkdepth b hb]
      exact hrest_bound a ha
  · -- depthBound
    intro h0 hh0 n hn
    cases rest with
    | nil =>
      simp only [List.nil_append] at hh0 hn
      have h0k : h0 ∈ kept := List.mem_of_mem_head? hh0
      rw [hkdepth h0 h0k, hkdepth n hn]
      omega
    | cons r rest' =>
      obtain rfl : r = h0 := by simpa using hh0
      have hr_lb : node.depth ≤ r.depth := hrest_lb r (by simp)
      rcases List.mem_append.1 hn with hn | hn
      · have := hrest_bound n hn
        omega
      · rw [hkdepth n hn]
        omega
  · -- cover
    intro h0 hh0 s k hr hk
    have hh0mem : h0 ∈ rest ++ kept := List.mem_of_mem_head? hh0
    have hh0depth : h0.depth ≤ node.depth + 1 := by
      rcases List.mem_append.1 hh0mem with hm | hm
      · exact hrest_bound h0 hm
      · rw [hkdepth h0 hm]
    by_cases hkd : k ≤ node.depth
    · rcases inv.cover node (by simp) s k hr hkd with hs | hs
      · exact Or.inl (by simp [hs])
      · simp only [List.map_cons, List.mem_cons] at hs
        rcases hs with hs | hs
        · exact Or.inl (by simp [hs])
        · exact Or.inr (by simp [hs])
    · -- here k = node.depth + 1 and h0.depth = node.depth + 1
      have hkeq : k = node.depth + 1 := by omega
      obtain ⟨acts, hv, hlen, hex⟩ := hr
      rcases List.eq_nil_or_concat acts with rfl | ⟨pre, a, rfl⟩
      · simp at hlen
        omega
      · simp only [List.concat_eq_append] at hv hlen hex
        have hvpre : ValidSeq p p.initial pre := ((validSeq_append_singleton ..).1 hv).1
        have hact : a ∈ p.actions (execActs p p.initial pre) :=
          ((validSeq_append_singleton ..).1 hv).2
        have hlenpre : pre.length = node.depth := by
          simp at hlen
          omega
        have hreachpre : Reaches p (execActs p p.initial pre) node.depth :=
          ⟨pre, hvpre, hlenpre, rfl⟩
        have hs : p.result (execActs p p.initial pre) a = s := by
          rw [← hex, execActs_append_singleton]
        rcases inv.cover node (by simp) _ node.depth hreachpre le_rfl with hpre | hpre
        · -- previous state explored: use closure
          rcases inv.closed _ hpre a hact with hc | hc
          · exact Or.inl (by simp [← hs, hc])
          · simp only [List.map_cons, List.mem_cons] at hc
            rcases hc with hc | hc
            · exact Or.inl (by simp [← hs, hc])
            · exact Or.inr (by simp [← hs, hc])
        · simp only [List.map_cons, List.mem_cons] at hpre
          rcases hpre with hpre | hpre
          · -- previous state is the node just expanded
            have hchild : node.child_node p a ∈ node.expand p := by
              rw [Node.mem_expand]
              exact ⟨a, hpre ▸ hact, rfl⟩
            rcases hcov _ hchild with hc | hc
            · have : (node.child_node p a).state = s := by
                rw [Node.child_node_state, ← hpre]
                exact hs
              rw [this] at hc
              exact Or.inl hc
            · have : (node.child_node p a).state = s := by
                rw [Node.child_node_state, ← hpre]
                exact hs
              rw [this] at hc
              exact Or.inr hc
          · -- previous state sits in rest, whose nodes all have depth node.depth + 1
            exfalso
            obtain ⟨n', hn', hst⟩ := List.mem_map.1 hpre
            cases rest with
            | nil => simp at hn'
            | cons r rest' =>
              obtain rfl : r = h0 := by simpa using hh0
              have hrd : node.depth + 1 ≤ r.depth := by omega
              have hn'depth : node.depth + 1 ≤ n'.depth := by
                have h1 := hrest_bound n' hn'
                rcases List.mem_cons.1 hn' with rfl | hmem
                · omega
                · have := List.rel_of_pairwise_cons inv.depthSorted.of_cons hmem
                  omega
              have := inv.minDepth n' (by simp [hn']) node.depth (by rw [hst]; exact hreachpre)
              omega
  · -- closed
    intro s hsmem a hact
    rcases List.mem_cons.1 hsmem with rfl | hsmem
    · have hchild : Node.child_node p node a ∈ node.expand p := by
        rw [Node.mem_expand]
        exact ⟨a, hact, rfl⟩
      rcases hcov _ hchild with hc | hc
      · exact Or.inl (by simpa [Node.child_node_state] using hc)
      · exact Or.inr (by simpa [Node.child_node_state] using hc)
    · rcases inv.closed s hsmem a hact with hc | hc
      · exact Or.inl (by simp [hc])
      · simp only [List.map_cons, List.mem_cons] at hc
        rcases hc with hc | hc
        · exact Or.inl (by simp [hc])
        · exact Or.inr (by simp [hc])
  · -- exNoGoal
    intro s hsmem
    rcases List.mem_cons.1 hsmem with rfl | hsmem
    · exact inv.frNoGoal node (by simp)
    · exact inv.exNoGoal s hsmem
  · -- frNoGoal
    intro n hn
    rcases List.mem_append.1 hn with hn | hn
    · exact inv.frNoGoal n (by simp [hn])
    · exact (hkept n hn).2.1
  · -- disj
    intro s hsmem
    rcases List.mem_cons.1 hsmem with rfl | hsmem
    · intro hmem
      simp only [List.map_append, List.mem_append] at hmem
      rcases hmem with hmem | hmem
      · have := inv.nodupFr
        simp only [List.map_cons, List.nodup_cons] at this
        exact this.1 hmem
      · obtain ⟨c, hc, hst⟩ := List.mem_map.1 hmem
        exact (hkept c hc).2.2.1 (by simp [hst])
    · intro hmem
      simp only [List.map_append, List.mem_append] at hmem
      rcases hmem with hmem | hmem
      · exact inv.disj s hsmem (by simp [hmem])
      · obtain ⟨c, hc, hst⟩ := List.mem_map.1 hmem
        exact (hkept c hc).2.2.1 (by simp [hst, hsmem])
  · -- nodupFr
    rw [List.map_append, List.nodup_append]
    refine ⟨?_, hknd, ?_⟩
    · have := inv.nodupFr
      simp only [List.map_cons, List.nodup_cons] at this
      exact this.2
    · intro s hs hs'
      obtain ⟨c, hc, hst⟩ := List.mem_map.1 hs'
      exact (hkept c hc).2.2.2 (hst ▸ hs)
  · -- nodupEx
    exact List.nodup_cons.2 ⟨hnode_not_ex, inv.nodupEx⟩

end BfsInvariant

section BfsOptimality

variable {σ : Type u} {α : Type v} [DecidableEq σ]

theorem bfsLoop_inv_least {p : Problem σ α} :
    ∀ (fuel : Nat) {fr : List (Node σ α)} {ex : List σ} (sn : Nat) {c : Node σ α},
      BfsInv p fr ex →
      bfsLoop p (-1) fuel fr ex sn = some (some c) →
      IsLeast (SolutionLengths p) c.solution.length := by
  intro fuel
  induction fuel with
  | zero =>
    intro fr ex sn c _ h
    exact absurd h (by simp [bfsLoop])
  | succ fuel ih =>
    intro fr ex sn c inv h
    cases fr with
    | nil => exact absurd h (by simp [bfsLoop])
    | cons node rest =>
      rw [bfsLoop, if_neg (fun hcon => by norm_num at hcon)] at h
      cases hpc : processChildren p (node.state :: ex) rest (node.expand p) with
      | inl goal =>
        rw [hpc] at h
        obtain rfl : goal = c := by simpa using h
        obtain ⟨hmem, hgoal, _⟩ := processChildren_inl_spec hpc
        have hsound : SoundNode p goal := soundNode_expand (inv.sound node (by simp)) hmem
        constructor
        · exact ⟨goal.solution, hsound.1, by rw [hsound.2.1]; exact hgoal, rfl⟩
        · intro k hk
          obtain ⟨acts, hv, hg, hlen⟩ := hk
          by_contra hlt
          push_neg at hlt
          have hcd : goal.depth = node.depth + 1 := Node.depth_of_mem_expand hmem
          have hk_le : k ≤ node.depth := by
            have := hsound.2.2
            omega
          have hreach : Reaches p (execActs p p.initial acts) k := ⟨acts, hv, hlen, rfl⟩
          rcases inv.cover node (by simp) _ k hreach hk_le with hs | hs
          · rw [inv.exNoGoal _ hs] at hg
            exact Bool.false_ne_true hg
          · obtain ⟨n', hn', hst⟩ := List.mem_map.1 hs
            rw [← hst, inv.frNoGoal n' hn'] at hg
            exact Bool.false_ne_true hg
      | inr fr2 =>
        rw [hpc] at h
        exact ih _ (bfsInv_step inv hpc) h

end BfsOptimality

section Termination

variable {σ : Type u} {α : Type v} [DecidableEq σ]

theorem execActs_mem_closed {p : Problem σ α} {S : Finset σ}
    (hcl : ∀ s ∈ S, ∀ a ∈ p.actions s, p.result s a ∈ S) :
    ∀ (acts : List α) (s : σ), s ∈ S → ValidSeq p s acts → execActs p s acts ∈ S := by
  intro acts
  induction acts with
  | nil => intro s hs _; exact hs
  | cons a rest ih => intro s hs hv; exact ih _ (hcl s hs a hv.1) hv.2

theorem nodup_length_le_card {S : Finset σ} {l : List σ}
    (hnd : l.Nodup) (hsub : ∀ s ∈ l, s ∈ S) : l.length ≤ S.card := by
  calc l.length = l.toFinset.card := (List.toFinset_card_of_nodup hnd).symm
  _ ≤ S.card := Finset.card_le_card (fun s hs => hsub s (List.mem_toFinset.1 hs))

theorem bfsLoop_unreachable_none {p : Problem σ α} {S : Finset σ}
    (hinit : p.initial ∈ S)
    (hcl : ∀ s ∈ S, ∀ a ∈ p.actions s, p.result s a ∈ S)
    (hun : ∀ acts, ValidSeq p p.initial acts →
      p.goal_test (execActs p p.initial acts) = false) :
    ∀ (fuel : Nat) {fr : List (Node σ α)} {ex : List σ} (sn : Nat),
      BfsInv p fr ex → (∀ s ∈ ex, s ∈ S) → S.card < fuel + ex.length →
      bfsLoop p (-1) fuel fr ex sn = some none := by
  intro fuel
  induction fuel with
  | zero =>
    intro fr ex sn inv hexS hcard
    have := nodup_length_le_card inv.nodupEx hexS
    omega
  | succ fuel ih =>
    intro fr ex sn inv hexS hcard
    cases fr with
    | nil => simp [bfsLoop]
    | cons node rest =>
      rw [bfsLoop, if_neg (fun hcon => by norm_num at hcon)]
      cases hpc : processChildren p (node.state :: ex) rest (node.expand p) with
      | inl goal =>
        exfalso
        obtain ⟨hmem, hgoal, _⟩ := processChildren_inl_spec hpc
        have hsound := soundNode_expand (inv.sound node (by simp)) hmem
        rw [← hsound.2.1, hun _ hsound.1] at hgoal
        exact Bool.false_ne_true hgoal
      | inr fr2 =>
        refine ih _ (bfsInv_step inv hpc) ?_ ?_
        · intro s hs
          rcases List.mem_cons.1 hs with rfl | hs
          · have hsound := inv.sound node (by simp)
            have := execActs_mem_closed hcl _ _ hinit hsound.1
            rwa [hsound.2.1] at this
          · exact hexS s hs
        · simp only [List.length_cons]
          omega

end Termination

/-- Claim C1: for every finite problem in which every action has the same
positive step cost, whenever `breadth_first_graph_search` (with the default
step limit) returns a node, the length of that node's `solution()` is the
minimum number of actions over all valid action sequences leading from
`problem.initial` to a state satisfying `goal_test`. -/
theorem bfs_solution_length_least {σ : Type u} {α : Type v} [DecidableEq σ]
    (p : Problem σ α) (fuel : Nat) (c : Node σ α)
    (hfin : ∃ S : Finset σ, p.initial ∈ S ∧ ∀ s ∈ S, ∀ a ∈ p.actions s, p.result s a ∈ S)
    (hcost : ∃ k, 0 < k ∧ ∀ (c0 : Nat) (s : σ) (a : α) (t : σ), p.path_cost c0 s a t = c0 + k)
    (h : breadth_first_graph_search p (-1) fuel = some (some c)) :
    IsLeast (SolutionLengths p) c.solution.length := by
  rw [breadth_first_graph_search] at h
  simp only [Node.state] at h
  by_cases hg : p.goal_test p.initial = true
  · rw [if_pos hg] at h
    obtain rfl : Node.root p.initial = c := by simpa using h
    constructor
    · exact ⟨[], trivial, hg, rfl⟩
    · intro k _
      exact Nat.zero_le k
  · rw [if_neg hg] at h
    exact bfsLoop_inv_least fuel 0 (bfsInv_init (Bool.not_eq_true _ ▸ hg)) h

/-- Witness for C1: on the two-state problem `tinyGoal`, BFS returns the
depth-one node for state 1 and its one-action solution is indeed of least
length. -/
theorem bfs_solution_length_least_witness :
    IsLeast (SolutionLengths tinyGoal)
      (Node.child 1 (Node.root 0) () 1 : Node Nat Unit).solution.length :=
  bfs_solution_length_least tinyGoal 5 _
    ⟨{0, 1}, by decide, by decide⟩
    ⟨1, Nat.one_pos, fun c0 s a t => rfl⟩
    (by decide)

section BestFirstLemmas

variable {σ : Type u} {α : Type v} [DecidableEq σ]

theorem selectMin_perm (f : Node σ α → Nat) (n : Node σ α) :
    ∀ l : List (Node σ α),
      List.Perm ((selectMin f n l).1 :: (selectMin f n l).2) (n :: l) := by
  intro l
  induction l generalizing n with
  | nil => exact List.Perm.refl _
  | cons m rest ih =>
    show List.Perm
      ((if f n ≤ f (selectMin f m rest).1 then (n, m :: rest)
        else ((selectMin f m rest).1, n :: (selectMin f m rest).2)).1 ::
       (if f n ≤ f (selectMin f m rest).1 then (n, m :: rest)
        else ((selectMin f m rest).1, n :: (selectMin f m rest).2)).2) (n :: m :: rest)
    by_cases hle : f n ≤ f (selectMin f m rest).1
    · rw [if_pos hle]
    · rw [if_neg hle]
      exact (List.Perm.swap ..).trans ((ih m).cons n)

theorem selectMin_mem (f : Node σ α → Nat) (n : Node σ α) (l : List (Node σ α)) :
    (selectMin f n l).1 ∈ n :: l :=
  (selectMin_perm f n l).mem_iff.1 (by simp)

theorem removeFirstState_subset (s : σ) :
    ∀ (l : List (Node σ α)), ∀ n ∈ removeFirstState s l, n ∈ l := by
  intro l
  induction l with
  | nil => simp [removeFirstState]
  | cons m rest ih =>
    intro n hn
    simp only [removeFirstState] at hn
    by_cases hm : m.state = s
    · rw [if_pos hm] at hn
      exact List.mem_cons_of_mem _ hn
    · rw [if_neg hm] at hn
      rcases List.mem_cons.1 hn with rfl | hn
      · exact List.mem_cons_self ..
      · exact List.mem_cons_of_mem _ (ih n hn)

theorem removeFirstState_map_nodup {s : σ} :
    ∀ {l : List (Node σ α)}, (l.map Node.state).Nodup →
      ((removeFirstState s l).map Node.state).Nodup := by
  intro l
  induction l with
  | nil => simp [removeFirstState]
  | cons m rest ih =>
    intro hnd
    simp only [List.map_cons, List.nodup_cons] at hnd
    simp only [removeFirstState]
    by_cases hm : m.state = s
    · rw [if_pos hm]
      exact hnd.2
    · rw [if_neg hm]
      simp only [List.map_cons, List.nodup_cons]
      refine ⟨?_, ih hnd.2⟩
      intro hmem
      obtain ⟨n, hn, hst⟩ := List.mem_map.1 hmem
      exact hnd.1 (List.mem_map.2 ⟨n, removeFirstState_subset s rest n hn, hst⟩)

theorem not_mem_map_removeFirstState {s : σ} :
    ∀ {l : List (Node σ α)}, (l.map Node.state).Nodup →
      s ∉ (removeFirstState s l).map Node.state := by
  intro l
  induction l with
  | nil => simp [removeFirstState]
  | cons m rest ih =>
    intro hnd
    simp only [List.map_cons, List.nodup_cons] at hnd
    simp only [removeFirstState]
    by_cases hm : m.state = s
    · rw [if_pos hm]
      rw [← hm]
      intro hmem
      exact hnd.1 hmem
    · rw [if_neg hm]
      simp only [List.map_cons, List.mem_cons]
      rintro (hs | hs)
      · exact hm hs.symm
      · exact ih hnd.2 hs

theorem mem_map_removeFirstState_subset {s t : σ} {l : List (Node σ α)}
    (h : t ∈ (removeFirstState s l).map Node.state) : t ∈ l.map Node.state := by
  obtain ⟨n, hn, hst⟩ := List.mem_map.1 h
  exact List.mem_map.2 ⟨n, removeFirstState_subset s l n hn, hst⟩

theorem bestFirstInsert_new {f : Node σ α → Nat} {ex : List σ}
    {fr : List (Node σ α)} {c : Node σ α}
    (h : c.state ∉ ex ∧ c.state ∉ fr.map Node.state) :
    bestFirstInsert f ex fr c = fr ++ [c] := by
  unfold bestFirstInsert
  rw [if_pos h]

theorem bestFirstInsert_skip {f : Node σ α → Nat} {ex : List σ}
    {fr : List (Node σ α)} {c : Node σ α}
    (h1 : ¬(c.state ∉ ex ∧ c.state ∉ fr.map Node.state))
    (h2 : c.state ∉ fr.map Node.state) :
    bestFirstInsert f ex fr c = fr := by
  unfold bestFirstInsert
  rw [if_neg h1, if_neg h2]

theorem bestFirstInsert_found {f : Node σ α → Nat} {ex : List σ}
    {fr : List (Node σ α)} {c old : Node σ α}
    (h1 : ¬(c.state ∉ ex ∧ c.state ∉ fr.map Node.state))
    (h2 : c.state ∈ fr.map Node.state)
    (hf : fr.find? (fun m => decide (m.state = c.state)) = some old) :
    bestFirstInsert f ex fr c =
      if f c < f old then removeFirstState c.state fr ++ [c] else fr := by
  unfold bestFirstInsert
  rw [if_neg h1, if_pos h2, hf]

theorem find?_state_of_mem {fr : List (Node σ α)} {c : Node σ α}
    (h2 : c.state ∈ fr.map Node.state) :
    ∃ old, fr.find? (fun m => decide (m.state = c.state)) = some old ∧
      old.state = c.state ∧ old ∈ fr := by
  obtain ⟨n, hn, hst⟩ := List.mem_map.1 h2
  have hsome : (fr.find? (fun m => decide (m.state = c.state))).isSome := by
    rw [List.find?_isSome]
    exact ⟨n, hn, by simp [hst]⟩
  obtain ⟨old, hold⟩ := Option.isSome_iff_exists.1 hsome
  refine ⟨old, hold, ?_, List.mem_of_find?_eq_some hold⟩
  have := List.find?_some hold
  simpa using this

theorem bestFirstInsert_mem {f : Node σ α → Nat} {ex : List σ}
    {fr : List (Node σ α)} {c n : Node σ α}
    (h : n ∈ bestFirstInsert f ex fr c) : n ∈ fr ∨ n = c := by
  by_cases h1 : c.state ∉ ex ∧ c.state ∉ fr.map Node.state
  · rw [bestFirstInsert_new h1] at h
    rcases List.mem_append.1 h with h | h
    · exact Or.inl h
    · exact Or.inr (by simpa using h)
  · by_cases h2 : c.state ∈ fr.map Node.state
    · obtain ⟨old, hf, _, _⟩ := find?_state_of_mem h2
      rw [bestFirstInsert_found h1 h2 hf] at h
      by_cases h3 : f c < f old
      · rw [if_pos h3] at h
        rcases List.mem_append.1 h with h | h
        · exact Or.inl (removeFirstState_subset _ _ _ h)
        · exact Or.inr (by simpa using h)
      · rw [if_neg h3] at h
        exact Or.inl h
    · rw [bestFirstInsert_skip h1 h2] at h
      exact Or.inl h

theorem bestFirstInsert_map_nodup {f : Node σ α → Nat} {ex : List σ}
    {fr : List (Node σ α)} {c : Node σ α}
    (hnd : (fr.map Node.state).Nodup) :
    ((bestFirstInsert f ex fr c).map Node.state).Nodup := by
  by_cases h1 : c.state ∉ ex ∧ c.state ∉ fr.map Node.state
  · rw [bestFirstInsert_new h1]
    simp only [List.map_append, List.map_cons, List.map_nil]
    rw [List.nodup_append]
    refine ⟨hnd, by simp, ?_⟩
    intro s hs hmem
    rw [List.mem_singleton] at hmem
    exact h1.2 (hmem ▸ hs)
  · by_cases h2 : c.state ∈ fr.map Node.state
    · obtain ⟨old, hf, _, _⟩ := find?_state_of_mem h2
      rw [bestFirstInsert_found h1 h2 hf]
      by_cases h3 : f c < f old
      · rw [if_pos h3]
        simp only [List.map_append, List.map_cons, List.map_nil]
        rw [List.nodup_append]
        refine ⟨removeFirstState_map_nodup hnd, by simp, ?_⟩
        intro s hs hmem
        rw [List.mem_singleton] at hmem
        exact not_mem_map_removeFirstState hnd (hmem ▸ hs)
      · rw [if_neg h3]
        exact hnd
    · rw [bestFirstInsert_skip h1 h2]
      exact hnd

theorem bestFirstInsert_not_mem {f : Node σ α → Nat} {ex : List σ}
    {fr : List (Node σ α)} {c : Node σ α} {s : σ}
    (hs : s ∈ ex) (hnot : s ∉ fr.map Node.state) :
    s ∉ (bestFirstInsert f ex fr c).map Node.state := by
  by_cases h1 : c.state ∉ ex ∧ c.state ∉ fr.map Node.state
  · rw [bestFirstInsert_new h1]
    simp only [List.map_append, List.map_cons, List.map_nil, List.mem_append,
      List.mem_cons, List.not_mem_nil, or_false]
    rintro (h | h)
    · exact hnot h
    · exact h1.1 (h ▸ hs)
  · by_cases h2 : c.state ∈ fr.map Node.state
    · obtain ⟨old, hf, _, _⟩ := find?_state_of_mem h2
      rw [bestFirstInsert_found h1 h2 hf]
      by_cases h3 : f c < f old
      · rw [if_pos h3]
        simp only [List.map_append, List.map_cons, List.map_nil, List.mem_append,
          List.mem_cons, List.not_mem_nil, or_false]
        rintro (h | h)
        · exact hnot (mem_map_removeFirstState_subset h)
        · exact hnot (h ▸ h2)
      · rw [if_neg h3]
        exact hnot
    · rw [bestFirstInsert_skip h1 h2]
      exact hnot

theorem foldl_bestFirstInsert_mem {f : Node σ α → Nat} {ex : List σ} :
    ∀ (cs fr : List (Node σ α)) (n : Node σ α),
      n ∈ cs.foldl (bestFirstInsert f ex) fr → n ∈ fr ∨ n ∈ cs := by
  intro cs
  induction cs with
  | nil => intro fr n h; exact Or.inl h
  | cons c cs ih =>
    intro fr n h
    rcases ih _ n h with h | h
    · rcases bestFirstInsert_mem h with h | rfl
      · exact Or.inl h
      · exact Or.inr (by simp)
    · exact Or.inr (List.mem_cons_of_mem _ h)

theorem foldl_bestFirstInsert_nodup {f : Node σ α → Nat} {ex : List σ} :
    ∀ (cs fr : List (Node σ α)), (fr.map Node.state).Nodup →
      ((cs.foldl (bestFirstInsert f ex) fr).map Node.state).Nodup := by
  intro cs
  induction cs with
  | nil => intro fr h; exact h
  | cons c cs ih => intro fr h; exact ih _ (bestFirstInsert_map_nodup h)

theorem foldl_bestFirstInsert_not_mem {f : Node σ α → Nat} {ex : List σ} {s : σ}
    (hs : s ∈ ex) :
    ∀ (cs fr : List (Node σ α)), s ∉ fr.map Node.state →
      s ∉ (cs.foldl (bestFirstInsert f ex) fr).map Node.state := by
  intro cs
  induction cs with
  | nil => intro fr h; exact h
  | cons c cs ih => intro fr h; exact ih _ (bestFirstInsert_not_mem hs h)

theorem bestInv_init {p : Problem σ α} :
    BestInv p [Node.root p.initial] [] := by
  refine ⟨?_, by simp, by simp, by simp⟩
  intro n hn
  obtain rfl : n = Node.root p.initial := by simpa using hn
  exact soundNode_root p

theorem bestInv_step {p : Problem σ α} {f : Node σ α → Nat}
    {m : Node σ α} {rest : List (Node σ α)} {ex : List σ}
    (inv : BestInv p (m :: rest) ex) :
    BestInv p
      (((selectMin f m rest).1.expand p).foldl
        (bestFirstInsert f ((selectMin f m rest).1.state :: ex)) (selectMin f m rest).2)
      ((selectMin f m rest).1.state :: ex) := by
  have hperm := selectMin_perm f m rest
  have hnodemem : (selectMin f m rest).1 ∈ m :: rest := selectMin_mem f m rest
  have hnodesound : SoundNode p (selectMin f m rest).1 := inv.sound _ hnodemem
  have hmapperm :
      List.Perm ((selectMin f m rest).1.state :: (selectMin f m rest).2.map Node.state)
        ((m :: rest).map Node.state) := by
    simpa using hperm.map Node.state
  have hnd2 : ((selectMin f m rest).1.state :: (selectMin f m rest).2.map Node.state).Nodup :=
    hmapperm.nodup_iff.2 inv.nodupFr
  have hnode_not_fr1 : (selectMin f m rest).1.state ∉ (selectMin f m rest).2.map Node.state :=
    (List.nodup_cons.1 hnd2).1
  have hfr1sub : ∀ s ∈ (selectMin f m rest).2.map Node.state,
      s ∈ (m :: rest).map Node.state := by
    intro s hs
    exact hmapperm.mem_iff.1 (by simp [hs])
  have hnode_not_ex : (selectMin f m rest).1.state ∉ ex := by
    intro hmem
    exact inv.disj _ hmem (hmapperm.mem_iff.1 (by simp))
  refine ⟨?_, ?_, ?_, ?_⟩
  · intro n hn
    rcases foldl_bestFirstInsert_mem _ _ n hn with hn | hn
    · exact inv.sound n (hperm.mem_iff.1 (by simp [hn]))
    · exact soundNode_expand hnodesound hn
  · intro s hsmem
    rcases List.mem_cons.1 hsmem with rfl | hsmem
    · exact foldl_bestFirstInsert_not_mem (by simp) _ _ hnode_not_fr1
    · refine foldl_bestFirstInsert_not_mem (by simp [hsmem]) _ _ ?_
      intro hmem
      exact inv.disj s hsmem (hfr1sub s hmem)
  · exact foldl_bestFirstInsert_nodup _ _ (List.Nodup.of_cons hnd2)
  · exact List.nodup_cons.2 ⟨hnode_not_ex, inv.nodupEx⟩

theorem bestFirstLoop_unreachable_none {p : Problem σ α} {f : Node σ α → Nat}
    {S : Finset σ} (hinit : p.initial ∈ S)
    (hcl : ∀ s ∈ S, ∀ a ∈ p.actions s, p.result s a ∈ S)
    (hun : ∀ acts, ValidSeq p p.initial acts →
      p.goal_test (execActs p p.initial acts) = false) :
    ∀ (fuel : Nat) {fr : List (Node σ α)} {ex : List σ} (sn : Nat),
      BestInv p fr ex → (∀ s ∈ ex, s ∈ S) → S.card < fuel + ex.length →
      bestFirstLoop p f fuel fr ex sn = some none := by
  intro fuel
  induction fuel with
  | zero =>
    intro fr ex sn inv hexS hcard
    have := nodup_length_le_card inv.nodupEx hexS
    omega
  | succ fuel ih =>
    intro fr ex sn inv hexS hcard
    cases fr with
    | nil => simp [bestFirstLoop]
    | cons m rest =>
      have hsound : SoundNode p (selectMin f m rest).1 :=
        inv.sound _ (selectMin_mem f m rest)
      have hng : p.goal_test (selectMin f m rest).1.state = false := by
        rw [← hsound.2.1]
        exact hun _ hsound.1
      rw [bestFirstLoop]
      simp only [hng, Bool.false_eq_true, if_false]
      refine ih _ (bestInv_step inv) ?_ ?_
      · intro s hs
        rcases List.mem_cons.1 hs with rfl | hs
        · have := execActs_mem_closed hcl _ _ hinit hsound.1
          rwa [hsound.2.1] at this
        · exact hexS s hs
      · simp only [List.length_cons]
        omega

end BestFirstLemmas

section ReachLemmas

variable {σ : Type u} {α : Type v} [DecidableEq σ]

theorem bfsReach_inv {p : Problem σ α} {lim : Int}
    {fr : List (Node σ α)} {ex : List σ} {k : Nat}
    (h : BfsReach p lim fr ex k) : BfsInv p fr ex := by
  induction h with
  | init hroot => exact bfsInv_init hroot
  | step _ _ hpc ih => exact bfsInv_step ih hpc

theorem bestReach_inv {p : Problem σ α} {f : Node σ α → Nat}
    {fr : List (Node σ α)} {ex : List σ} {k : Nat}
    (h : BestReach p f fr ex k) : BestInv p fr ex := by
  induction h with
  | init => exact bestInv_init
  | step _ _ ih => exact bestInv_step ih

theorem bfsReach_det {p : Problem σ α} {lim : Int}
    {fr : List (Node σ α)} {ex : List σ} {k : Nat}
    (h1 : BfsReach p lim fr ex k) :
    ∀ {fr' : List (Node σ α)} {ex' : List σ},
      BfsReach p lim fr' ex' k → fr = fr' ∧ ex = ex' := by
  induction h1 with
  | init _ =>
    intro fr' ex' h2
    cases h2 with
    | init _ => exact ⟨rfl, rfl⟩
  | @step node rest ex1 k1 fr2 h1' hlim hpc ih =>
    intro fr' ex' h2
    cases h2 with
    | step h2' hlim2 hpc2 =>
      obtain ⟨hfr, hex⟩ := ih h2'
      injection hfr with h3 h4
      subst h3
      subst h4
      subst hex
      rw [hpc] at hpc2
      obtain rfl := Sum.inr.inj hpc2
      exact ⟨rfl, rfl⟩

theorem bfsReach_mono_explored {p : Problem σ α} {lim : Int}
    {fr : List (Node σ α)} {ex : List σ} {k : Nat}
    (h1 : BfsReach p lim fr ex k) :
    ∀ {fr' : List (Node σ α)} {ex' : List σ} {k' : Nat},
      BfsReach p lim fr' ex' k' → k ≤ k' → ∀ s ∈ ex, s ∈ ex' := by
  intro fr' ex' k' h2
  induction h2 with
  | init hroot =>
    intro hk s hs
    obtain rfl : k = 0 := Nat.le_zero.1 hk
    obtain ⟨_, hex⟩ := bfsReach_det h1 (BfsReach.init hroot)
    exact absurd (hex ▸ hs) (List.not_mem_nil s)
  | @step node2 rest2 ex2 k2 fr2 h2' hlim2 hpc2 ih =>
    intro hk s hs
    by_cases hke : k = k2 + 1
    · subst hke
      obtain ⟨_, hex⟩ := bfsReach_det h1 (BfsReach.step h2' hlim2 hpc2)
      exact hex ▸ hs
    · have hk2 : k ≤ k2 := by omega
      exact List.mem_cons_of_mem _ (ih hk2 s hs)

theorem bestReach_det {p : Problem σ α} {f : Node σ α → Nat}
    {fr : List (Node σ α)} {ex : List σ} {k : Nat}
    (h1 : BestReach p f fr ex k) :
    ∀ {fr' : List (Node σ α)} {ex' : List σ},
      BestReach p f fr' ex' k → fr = fr' ∧ ex = ex' := by
  induction h1 with
  | init =>
    intro fr' ex' h2
    cases h2 with
    | init => exact ⟨rfl, rfl⟩
  | @step m rest ex1 k1 h1' hg1 ih =>
    intro fr' ex' h2
    cases h2 with
    | step h2' hg2 =>
      obtain ⟨hfr, hex⟩ := ih h2'
      injection hfr with h3 h4
      subst h3
      subst h4
      subst hex
      exact ⟨rfl, rfl⟩

theorem bestReach_mono_explored {p : Problem σ α} {f : Node σ α → Nat}
    {fr : List (Node σ α)} {ex : List σ} {k : Nat}
    (h1 : BestReach p f fr ex k) :
    ∀ {fr' : List (Node σ α)} {ex' : List σ} {k' : Nat},
      BestReach p f fr' ex' k' → k ≤ k' → ∀ s ∈ ex, s ∈ ex' := by
  intro fr' ex' k' h2
  induction h2 with
  | init =>
    intro hk s hs
    obtain rfl : k = 0 := Nat.le_zero.1 hk
    obtain ⟨_, hex⟩ := bestReach_det h1 BestReach.init
    exact absurd (hex ▸ hs) (List.not_mem_nil s)
  | @step m2 rest2 ex2 k2 h2' hg2 ih =>
    intro hk s hs
    by_cases hke : k = k2 + 1
    · subst hke
      obtain ⟨_, hex⟩ := bestReach_det h1 (BestReach.step h2' hg2)
      exact hex ▸ hs
    · have hk2 : k ≤ k2 := by omega
      exact List.mem_cons_of_mem _ (ih hk2 s hs)

end ReachLemmas

/-- Claim C8: for every finite problem (state space closed under transitions,
with the initial state inside) whose goal is unreachable from the initial
state, both `breadth_first_graph_search` and `best_first_graph_search`
terminate — any fuel beyond the number of states suffices — and return the
explicit absent value (`some none`, the embedded Python `None`) rather than
any error. -/
theorem searches_return_none_when_goal_unreachable {σ : Type u} {α : Type v}
    [DecidableEq σ] (p : Problem σ α) (f : Node σ α → Nat) (S : Finset σ) (fuel : Nat)
    (hinit : p.initial ∈ S)
    (hcl : ∀ s ∈ S, ∀ a ∈ p.actions s, p.result s a ∈ S)
    (hun : ∀ acts, ValidSeq p p.initial acts →
      p.goal_test (execActs p p.initial acts) = false)
    (hfuel : S.card < fuel) :
    breadth_first_graph_search p (-1) fuel = some none ∧
    best_first_graph_search p f fuel = some none := by
  have hroot : p.goal_test p.initial = false := hun [] trivial
  constructor
  · rw [breadth_first_graph_search]
    simp only [Node.state]
    rw [if_neg (by simp [hroot])]
    exact bfsLoop_unreachable_none hinit hcl hun fuel 0 (bfsInv_init hroot)
      (by simp) (by simpa)
  · rw [best_first_graph_search]
    exact bestFirstLoop_unreachable_none hinit hcl hun fuel 0 bestInv_init
      (by simp) (by simpa)

/-- Witness for C8: on the one-state problem `tinyNoGoal`, whose goal test
never succeeds, both searches return the absent value. -/
theorem searches_return_none_when_goal_unreachable_witness :
    breadth_first_graph_search tinyNoGoal (-1) 2 = some none ∧
    best_first_graph_search tinyNoGoal (fun _ => 0) 2 = some none :=
  searches_return_none_when_goal_unreachable tinyNoGoal (fun _ => 0) {0} 2
    (by decide) (by decide) (fun acts _ => rfl) (by decide)

/-- Claim C3: in every reachable loop state of both
`breadth_first_graph_search` and `best_first_graph_search`, no state is
simultaneously in the explored set and the state of a frontier node, and no
two distinct frontier nodes share a state (the frontier's state list is
duplicate-free). -/
theorem dedup_invariant :
    (∀ (σ₁ α₁ : Type) [DecidableEq σ₁] (p : Problem σ₁ α₁) (lim : Int)
        (fr : List (Node σ₁ α₁)) (ex : List σ₁) (k : Nat),
        BfsReach p lim fr ex k →
        (∀ s ∈ ex, s ∉ fr.map Node.state) ∧ (fr.map Node.state).Nodup) ∧
    (∀ (σ₁ α₁ : Type) [DecidableEq σ₁] (p : Problem σ₁ α₁) (f : Node σ₁ α₁ → Nat)
        (fr : List (Node σ₁ α₁)) (ex : List σ₁) (k : Nat),
        BestReach p f fr ex k →
        (∀ s ∈ ex, s ∉ fr.map Node.state) ∧ (fr.map Node.state).Nodup) := by
  constructor
  · intro σ₁ α₁ _ p lim fr ex k h
    have inv := bfsReach_inv h
    exact ⟨inv.disj, inv.nodupFr⟩
  · intro σ₁ α₁ _ p f fr ex k h
    have inv := bestReach_inv h
    exact ⟨inv.disj, inv.nodupFr⟩

/-- Witness for C3: the loop state after the first iteration on
`tinyNoGoal`, for both algorithms. -/
theorem dedup_invariant_witness :
    ((∀ s ∈ [(0 : Nat)], s ∉ ([] : List (Node Nat Unit)).map Node.state) ∧
      (([] : List (Node Nat Unit)).map Node.state).Nodup) ∧
    ((∀ s ∈ [(0 : Nat)], s ∉ ([] : List (Node Nat Unit)).map Node.state) ∧
      (([] : List (Node Nat Unit)).map Node.state).Nodup) :=
  ⟨dedup_invariant.1 Nat Unit tinyNoGoal (-1) [] [0] 1
      (BfsReach.step (BfsReach.init rfl) (by decide) rfl),
    dedup_invariant.2 Nat Unit tinyNoGoal (fun _ => 0) [] [0] 1
      (BestReach.step BestReach.init rfl)⟩

/-- Claim C4: in `best_first_graph_search`, a generated child whose state
already has a frontier entry `old` (found by state, with stored score
`f old`) replaces that entry exactly when `f child` is strictly lower;
otherwise the child is discarded and the frontier is unchanged. -/
theorem bestFirst_frontier_replacement {σ₁ : Type u} {α₁ : Type v} [DecidableEq σ₁]
    (f : Node σ₁ α₁ → Nat) (explored : List σ₁) (frontier : List (Node σ₁ α₁))
    (child old : Node σ₁ α₁)
    (hf : frontier.find? (fun m => decide (m.state = child.state)) = some old) :
    (f child < f old →
      bestFirstInsert f explored frontier child =
        removeFirstState child.state frontier ++ [child]) ∧
    (¬f child < f old → bestFirstInsert f explored frontier child = frontier) := by
  have hmem : child.state ∈ frontier.map Node.state := by
    have h1 := List.find?_some hf
    have h2 := List.mem_of_find?_eq_some hf
    exact List.mem_map.2 ⟨old, h2, by simpa using h1⟩
  have h1 : ¬(child.state ∉ explored ∧ child.state ∉ frontier.map Node.state) := by
    intro hcon
    exact hcon.2 hmem
  constructor
  · intro hlt
    rw [bestFirstInsert_found h1 hmem hf, if_pos hlt]
  · intro hge
    rw [bestFirstInsert_found h1 hmem hf, if_neg hge]

/-- Witness for C4: a cheaper path (cost 3) to state 0 replaces the
resident frontier entry of cost 7. -/
theorem bestFirst_frontier_replacement_witness :
    bestFirstInsert Node.pathCost [] [Node.child 0 (Node.root 5) () 7]
        (Node.child 0 (Node.root 1) () 3 : Node Nat Unit) =
      [Node.child 0 (Node.root 1) () 3] :=
  (bestFirst_frontier_replacement Node.pathCost [] [Node.child 0 (Node.root 5) () 7]
      (Node.child 0 (Node.root 1) () 3) (Node.child 0 (Node.root 5) () 7)
      (by decide)).1 (by decide)

/-- Claim C5: in both search algorithms, once a state enters the explored
set it stays explored and is never again frontier-resident at any later
loop state, and a generated child whose state is explored is discarded
unconditionally (the frontier-update step leaves the frontier unchanged). -/
theorem explored_never_reinserted :
    (∀ (σ₁ α₁ : Type) [DecidableEq σ₁] (p : Problem σ₁ α₁) (lim : Int)
        (fr : List (Node σ₁ α₁)) (ex : List σ₁) (k : Nat)
        (fr' : List (Node σ₁ α₁)) (ex' : List σ₁) (k' : Nat),
        BfsReach p lim fr ex k → BfsReach p lim fr' ex' k' → k ≤ k' →
        ∀ s ∈ ex, s ∈ ex' ∧ s ∉ fr'.map Node.state) ∧
    (∀ (σ₁ α₁ : Type) [DecidableEq σ₁] (p : Problem σ₁ α₁) (ex : List σ₁)
        (fr cs : List (Node σ₁ α₁)) (c : Node σ₁ α₁),
        c.state ∈ ex →
        processChildren p ex fr (c :: cs) = processChildren p ex fr cs) ∧
    (∀ (σ₁ α₁ : Type) [DecidableEq σ₁] (p : Problem σ₁ α₁) (f : Node σ₁ α₁ → Nat)
        (fr : List (Node σ₁ α₁)) (ex : List σ₁) (k : Nat)
        (fr' : List (Node σ₁ α₁)) (ex' : List σ₁) (k' : Nat),
        BestReach p f fr ex k → BestReach p f fr' ex' k' → k ≤ k' →
        ∀ s ∈ ex, s ∈ ex' ∧ s ∉ fr'.map Node.state) ∧
    (∀ (σ₁ α₁ : Type) [DecidableEq σ₁] (f : Node σ₁ α₁ → Nat) (ex : List σ₁)
        (fr : List (Node σ₁ α₁)) (c : Node σ₁ α₁),
        c.state ∈ ex → c.state ∉ fr.map Node.state →
        bestFirstInsert f ex fr c = fr) := by
  refine ⟨?_, ?_, ?_, ?_⟩
  · intro σ₁ α₁ _ p lim fr ex k fr' ex' k' h1 h2 hk s hs
    have hmem : s ∈ ex' := bfsReach_mono_explored h1 h2 hk s hs
    exact ⟨hmem, (bfsReach_inv h2).disj s hmem⟩
  · intro σ₁ α₁ _ p ex fr cs c hc
    exact processChildren_skip_explored hc
  · intro σ₁ α₁ _ p f fr ex k fr' ex' k' h1 h2 hk s hs
    have hmem : s ∈ ex' := bestReach_mono_explored h1 h2 hk s hs
    exact ⟨hmem, (bestReach_inv h2).disj s hmem⟩
  · intro σ₁ α₁ _ f ex fr c hc hnot
    exact bestFirstInsert_skip (fun hcon => hcon.1 hc) hnot

/-- Witness for C5: on `tinyNoGoal`, state 0 is explored after one step of
either loop and never reappears in the frontier; a child with explored
state 0 is skipped by both frontier-update steps. -/
theorem explored_never_reinserted_witness :
    ((0 : Nat) ∈ [(0 : Nat)] ∧
      (0 : Nat) ∉ ([] : List (Node Nat Unit)).map Node.state) ∧
    (processChildren tinyNoGoal [0] [] [Node.root 0] =
      processChildren tinyNoGoal [0] [] []) ∧
    ((0 : Nat) ∈ [(0 : Nat)] ∧
      (0 : Nat) ∉ ([] : List (Node Nat Unit)).map Node.state) ∧
    (bestFirstInsert (fun _ => 0) [0] [] (Node.root (0 : Nat) : Node Nat Unit) = []) :=
  ⟨explored_never_reinserted.1 Nat Unit tinyNoGoal (-1) [] [0] 1 [] [0] 1
      (BfsReach.step (BfsReach.init rfl) (by decide) rfl)
      (BfsReach.step (BfsReach.init rfl) (by decide) rfl) le_rfl 0 (by simp),
    explored_never_reinserted.2.1 Nat Unit tinyNoGoal [0] [] [] (Node.root 0) (by decide),
    explored_never_reinserted.2.2.1 Nat Unit tinyNoGoal (fun _ => 0) [] [0] 1 [] [0] 1
      (BestReach.step BestReach.init rfl) (BestReach.step BestReach.init rfl)
      le_rfl 0 (by simp),
    explored_never_reinserted.2.2.2 Nat Unit (fun _ => 0) [0] [] (Node.root 0)
      (by decide) (by simp)⟩

/-- Claim C6: for every node reachable by repeated `expand` from the root
built on `problem.initial`, the solution length equals the depth, the
solution is the action list of `path()` minus the root, and folding
`problem.result` over the solution from the initial state reproduces the
node's state. -/
theorem node_solution_reconstruction {σ₁ : Type u} {α₁ : Type v}
    (p : Problem σ₁ α₁) (n : Node σ₁ α₁) (h : ReachableNode p n) :
    n.solution.length = n.depth ∧
    n.solution = (n.path.drop 1).filterMap Node.act? ∧
    execActs p p.initial n.solution = n.state :=
  ⟨Node.solution_length n, rfl, (reachable_sound h).2.1⟩

/-- Witness for C6: the expand-reachable depth-one node of `tinyGoal`. -/
theorem node_solution_reconstruction_witness :
    (Node.child 1 (Node.root 0) () 1 : Node Nat Unit).solution.length =
        (Node.child 1 (Node.root 0) () 1 : Node Nat Unit).depth ∧
    (Node.child 1 (Node.root 0) () 1 : Node Nat Unit).solution =
        (((Node.child 1 (Node.root 0) () 1 : Node Nat Unit).path.drop 1).filterMap
          Node.act?) ∧
    execActs tinyGoal tinyGoal.initial
        (Node.child 1 (Node.root 0) () 1 : Node Nat Unit).solution =
      (Node.child 1 (Node.root 0) () 1 : Node Nat Unit).state :=
  node_solution_reconstruction tinyGoal (Node.child 1 (Node.root 0) () 1)
    (ReachableNode.expand ReachableNode.root (by decide))

/-- Claim C7: `Node.__eq__` holds exactly when the two states are equal,
regardless of parent, action, path cost or depth; `Node.__hash__` is the
hash of the state; hence frontier membership of a node (an `any` over
`__eq__`) is decided by its state alone. -/
theorem node_equality_by_state {σ₁ : Type u} {α₁ : Type v} [DecidableEq σ₁]
    (hs : σ₁ → Nat) (n1 n2 : Node σ₁ α₁) :
    (Node.beq n1 n2 = true ↔ n1.state = n2.state) ∧
    Node.hashBy hs n1 = hs n1.state ∧
    (∀ fr : List (Node σ₁ α₁),
      fr.any (fun m => Node.beq m n1) = true ↔ n1.state ∈ fr.map Node.state) := by
  refine ⟨by simp [Node.beq], rfl, ?_⟩
  intro fr
  rw [List.any_eq_true]
  constructor
  · rintro ⟨m, hm, hbeq⟩
    exact List.mem_map.2 ⟨m, hm, by simpa [Node.beq] using hbeq⟩
  · intro hmem
    obtain ⟨m, hm, hst⟩ := List.mem_map.1 hmem
    exact ⟨m, hm, by simp [Node.beq, hst]⟩

/-- Claim C9: the `step_limits` debug return of BFS fires exactly when the
limit is positive and the iteration counter has reached it, returning the
just-popped node unconditionally (before its expansion and regardless of
its goal status); with a non-positive limit the loop behaves identically to
the default `-1`; in particular, with limit 1 and a non-goal root the whole
search returns the root. -/
theorem step_limit_semantics :
    (∀ (σ₁ α₁ : Type) [DecidableEq σ₁] (p : Problem σ₁ α₁) (lim : Int) (fuel : Nat)
        (node : Node σ₁ α₁) (rest : List (Node σ₁ α₁)) (ex : List σ₁) (sn : Nat),
        0 < lim → lim ≤ ((sn : Int) + 1) →
        bfsLoop p lim (fuel + 1) (node :: rest) ex sn = some (some node)) ∧
    (∀ (σ₁ α₁ : Type) [DecidableEq σ₁] (p : Problem σ₁ α₁) (lim : Int),
        lim ≤ 0 →
        ∀ (fuel : Nat) (fr : List (Node σ₁ α₁)) (ex : List σ₁) (sn : Nat),
        bfsLoop p lim fuel fr ex sn = bfsLoop p (-1) fuel fr ex sn) ∧
    (∀ (σ₁ α₁ : Type) [DecidableEq σ₁] (p : Problem σ₁ α₁) (fuel : Nat),
        p.goal_test p.initial = false →
        breadth_first_graph_search p 1 (fuel + 1) = some (some (Node.root p.initial))) := by
  refine ⟨?_, ?_, ?_⟩
  · intro σ₁ α₁ _ p lim fuel node rest ex sn h1 h2
    rw [bfsLoop, if_pos ⟨h1, h2⟩]
  · intro σ₁ α₁ _ p lim hlim fuel
    induction fuel with
    | zero => intro fr ex sn; rfl
    | succ fuel ih =>
      intro fr ex sn
      cases fr with
      | nil => rfl
      | cons node rest =>
        rw [bfsLoop, bfsLoop]
        rw [if_neg (fun hcon => by omega), if_neg (fun hcon => by omega)]
        cases hpc : processChildren p (node.state :: ex) rest (node.expand p) with
        | inl goal => rfl
        | inr fr2 => exact ih fr2 (node.state :: ex) (sn + 1)
  · intro σ₁ α₁ _ p fuel hroot
    rw [breadth_first_graph_search]
    simp only [Node.state]
    rw [if_neg (by simp [hroot]), bfsLoop, if_pos (by norm_num)]

/-- Witness for C9: on `tinyGoal`, the limit-1 loop returns the non-goal
root at once; the limit-0 loop equals the default loop; the limit-1 search
returns the root. -/
theorem step_limit_semantics_witness :
    bfsLoop tinyGoal 1 1 [Node.root 0] [] 0 = some (some (Node.root 0)) ∧
    bfsLoop tinyGoal 0 1 [Node.root 0] [] 0 = bfsLoop tinyGoal (-1) 1 [Node.root 0] [] 0 ∧
    breadth_first_graph_search tinyGoal 1 1 = some (some (Node.root 0)) :=
  ⟨step_limit_semantics.1 Nat Unit tinyGoal 1 0 (Node.root 0) [] [] 0
      (by decide) (by decide),
    step_limit_semantics.2.1 Nat Unit tinyGoal 0 (by decide) 1 [Node.root 0] [] 0,
    step_limit_semantics.2.2 Nat Unit tinyGoal 0 (by decide)⟩

/-- Claim C10: `MazePuzzle.result` is total and never raises: each of the
four direction strings yields the corresponding unit-offset coordinate
unconditionally (no bounds or passability check), and any other action
yields the absent value `none`. -/
theorem mazeResult_total (x y : Int) :
    MazePuzzle.result (x, y) "UP" = some (x - 1, y) ∧
    MazePuzzle.result (x, y) "DOWN" = some (x + 1, y) ∧
    MazePuzzle.result (x, y) "LEFT" = some (x, y - 1) ∧
    MazePuzzle.result (x, y) "RIGHT" = some (x, y + 1) ∧
    ∀ a : String, a ∉ ["UP", "DOWN", "LEFT", "RIGHT"] →
      MazePuzzle.result (x, y) a = none := by
  refine ⟨by simp [MazePuzzle.result], by simp [MazePuzzle.result],
    by simp [MazePuzzle.result], by simp [MazePuzzle.result], ?_⟩
  intro a ha
  simp only [List.mem_cons, List.not_mem_nil, or_false, not_or] at ha
  obtain ⟨h1, h2, h3, h4⟩ := ha
  simp [MazePuzzle.result, h1, h2, h3, h4]

/-- Witness for C10: an out-of-range coordinate still moves, and an unknown
action yields `none`. -/
theorem mazeResult_total_witness : MazePuzzle.result (5, 7) "JUMP" = none :=
  (mazeResult_total 5 7).2.2.2.2 "JUMP" (by decide)

/-- Claim C2: on the 5×5 maze of `maze_puzzle_game.py` with initial `(0,0)`
and goal `(4,4)`, both `breadth_first_graph_search` and
`best_first_graph_search` scored by the Manhattan-distance heuristic return
a node whose `solution()` is the 8-action sequence DOWN, RIGHT, DOWN, DOWN,
RIGHT, DOWN, RIGHT, RIGHT — a valid path through passable cells from the
initial state to `(4,4)` that satisfies the goal test. -/
theorem maze_end_to_end :
    (breadth_first_graph_search puzzle (-1) 100).map (Option.map Node.solution) =
      some (some ["DOWN", "RIGHT", "DOWN", "DOWN", "RIGHT", "DOWN", "RIGHT", "RIGHT"]) ∧
    (best_first_graph_search puzzle (MazePuzzle.h (4, 4)) 100).map (Option.map Node.solution) =
      some (some ["DOWN", "RIGHT", "DOWN", "DOWN", "RIGHT", "DOWN", "RIGHT", "RIGHT"]) ∧
    puzzle.initial = (0, 0) ∧
    (["DOWN", "RIGHT", "DOWN", "DOWN", "RIGHT", "DOWN", "RIGHT", "RIGHT"] : List String).length = 8 ∧
    ValidSeq puzzle puzzle.initial
      ["DOWN", "RIGHT", "DOWN", "DOWN", "RIGHT", "DOWN", "RIGHT", "RIGHT"] ∧
    execActs puzzle puzzle.initial
      ["DOWN", "RIGHT", "DOWN", "DOWN", "RIGHT", "DOWN", "RIGHT", "RIGHT"] = (4, 4) ∧
    puzzle.goal_test
      (execActs puzzle puzzle.initial
        ["DOWN", "RIGHT", "DOWN", "DOWN", "RIGHT", "DOWN", "RIGHT", "RIGHT"]) = true := by
  refine ⟨by decide, by decide, rfl, rfl, by decide, by decide, by decide⟩

